import Mathlib

set_option maxHeartbeats 1000000

/-!
Shallow embedding of the thedig enrichment orchestration engine.

Sources embedded:
* `src/thedig/excavators/archaeology.py` — `ExcavatorField.run`,
  `ExcavatorField.excavate`, `ExcavatorField.upgrade`, `Archeologist.person`,
  `Archeologist.register`.
* `src/transmutation/api/person.py` — `person_set_field`, `dict_to_person`,
  `is_pure_iterable`, and the `Person` annotation table that the RE_SET
  regex classifies into SET vs SCALAR cardinality.

Modelling decisions:
* A field value is a Python `str` or a Python `set` of strings, embedded as
  `Value.str` / `Value.vset` with a `Finset String` (Python set equality is
  extensional, order-free).
* A record (`Person`) is an insertion-ordered association list, matching
  Python dict semantics: assignment to an existing key keeps its position,
  assignment to a new key appends at the end, dict equality on nodup-key
  records coincides with list equality.
* An excavator's network callable can either return a result or raise; this
  is embedded as `Person → Except String Person` where `.error` is a raised
  exception and the empty record plays the role of falsy results
  (`None` / `{}`).  `person_ta.validate_python` is the identity on
  well-typed results (its raising behaviour on ill-typed results is an
  exception like any other and is subsumed by `.error` endpoints).
* The memoization ledger `exc: defaultdict(list)` keyed by endpoint with
  `(field, value)` entries is flattened to a list of
  `(endpoint id, field, value)` triples; membership and append agree with
  the source.  The value component is `Option Value` (`pget`), `some` in
  every reachable state since worklist fields are always present keys.
* The orchestrator's `for field in fields` loop over a list that is
  extended while iterating is embedded as a recursion on the pending
  suffix of the worklist, with explicit fuel for totality (the source loop
  is not structurally terminating).  The instrumentation added for
  verification (the invocation trace carried in the results) records
  exactly the invocations the source performs and influences nothing.
-/

inductive Value where
  | str : String → Value
  | vset : Finset String → Value
deriving DecidableEq

/-- Python truthiness of a field value: the empty string and the empty set
are falsy (`if (v and ...)` in `ExcavatorField.excavate`). -/
def Value.truthy : Value → Bool
  | .str s => decide (s ≠ "")
  | .vset s => decide (s ≠ ∅)

/-- A record: Python dict from field name to value, as an insertion-ordered
association list. -/
abbrev Person := List (String × Value)

/-- Python `person.get(k)` / `person[k]`. -/
def pget : Person → String → Option Value
  | [], _ => none
  | kv :: rest, k => if kv.1 = k then some kv.2 else pget rest k

/-- Python `person[k] = v`: replace the (unique) existing entry in place,
else append at the end. -/
def pset : Person → String → Value → Person
  | [], k, v => [(k, v)]
  | kv :: rest, k, v => if kv.1 = k then (k, v) :: rest else kv :: pset rest k v

/-- Python `k in person`. -/
def pmem (p : Person) (k : String) : Bool := (pget p k).isSome

/-- The fields of the `Person` TypedDict of `src/transmutation/api/person.py`
whose annotation string matches `RE_SET` (i.e. the `set[...]`-typed ones):
these have SET cardinality, the rest are SCALAR. -/
def setFields : List String :=
  ["homeLocation", "alternateName", "description", "identifier", "image",
   "jobTitle", "knowsLanguage", "nationality", "sameAs", "workLocation",
   "worksFor"]

/-- All keys of `Person.__annotations__`; `person_set_field` looks the field
up there (an undeclared field would raise `KeyError` in the source, so the
merge-level claims quantify over declared fields). -/
def annotatedFields : List String :=
  ["name", "email", "familyName", "givenName", "OptOut", "url"] ++ setFields

/-- Source: `is_field_set = RE_SET.match(str(Person.__annotations__[field]))`. -/
def is_field_set (k : String) : Bool := setFields.contains k

/-- Coercion of a value to a Python set: a set stays itself, a scalar
becomes the singleton `{v}` (the source's `{person[field],}` / `{value,}`). -/
def toFinset : Value → Finset String
  | .str s => {s}
  | .vset s => s

/-- Embeds `person_set_field` of `src/transmutation/api/person.py`: on a SET-typed
field, coerce the destination to a set (empty if absent, singleton if
scalar) and union the (coerced) incoming value into it; on a SCALAR field,
plain assignment. -/
def person_set_field (person : Person) (field : String) (value : Value) : Person :=
  if is_field_set field then
    let cur : Finset String :=
      match pget person field with
      | none => ∅
      | some w => toFinset w
    pset person field (.vset (cur ∪ toFinset value))
  else
    pset person field value

/-- One registered excavator (the `excavator_param` dict built by
`Archeologist.register`): endpoint identity, declared `update` and `insert`
field lists, the derived `catchall` flag, parameter-binding mode, and the
fallible asynchronous callable. -/
structure ExcCfg where
  id : Nat
  update : List String
  insert : List String
  catchall : Bool
  person_param : Bool
  parameters : List String
  endpoint : Person → Except String Person

/-- Embeds `ExcavatorField.upgrade` of `src/thedig/excavators/archaeology.py`,
returning the mutated record and the Python return value
(`some true` = wrote, `none` = unchanged early return, `some false` =
suppressed or insert-blocked). -/
def upgrade (exc : ExcCfg) (person : Person) (k : String) (v : Value) :
    Person × Option Bool :=
  if k = "alternateName" ∧ some v = pget person "name" then
    (person, some false)
  else if pmem person k = false then
    (person_set_field person k v, some true)
  else if pget person k = some v then
    (person, none)
  else if k ∈ exc.update ∨ exc.catchall = true then
    (person_set_field person k v, some true)
  else
    (person, some false)

/-- Embeds `is_pure_iterable`: sets are pure iterables, strings are not. -/
def is_pure_iterable : Value → Bool
  | .str _ => false
  | .vset _ => true

/-- Embeds `dict_to_person` of `src/transmutation/api/person.py`: wrap non-iterable
values of SET-typed fields into singletons. -/
def dict_to_person (person_dict : Person) : Person :=
  person_dict.map (fun kv =>
    if is_field_set kv.1 = true ∧ is_pure_iterable kv.2 = false then
      (kv.1, .vset (toFinset kv.2))
    else kv)

/-- Parameter binding of `ExcavatorField.run`: the whole record for
`person_param` excavators, else the sub-record of declared parameters. -/
def bindParams (exc : ExcCfg) (person : Person) : Person :=
  if exc.person_param then person
  else person.filter (fun kv => exc.parameters.contains kv.1)

/-- Embeds `ExcavatorField.run`: bind parameters, invoke the endpoint (the only
fallible step; a raised exception propagates), normalize a truthy result
with `dict_to_person`. -/
def ExcCfg.run (exc : ExcCfg) (person : Person) : Except String Person :=
  match exc.endpoint (bindParams exc person) with
  | .error e => .error e
  | .ok p_exc => .ok (if p_exc.isEmpty then p_exc else dict_to_person p_exc)

/-- Add a key to a Python set-of-strings (modelled as a dedup list). -/
def addKey (l : List String) (k : String) : List String :=
  if k ∈ l then l else l ++ [k]

/-- Python `set.update`: union of upgraded-key sets. -/
def updUnion (a b : List String) : List String := b.foldl addKey a

/-- One iteration of the set comprehension of `ExcavatorField.excavate`
(`upgraded = \x7bk for k, v in p_eligible.items() if self.upgrade(k, v)\x7d`):
merge one pair through `upgrade` on the mutating record, collecting the key
when the merge wrote. -/
def upgradeStep (exc : ExcCfg) (st : Person × List String) (kv : String × Value) :
    Person × List String :=
  match upgrade exc st.1 kv.1 kv.2 with
  | (p1, some true) => (p1, addKey st.2 kv.1)
  | (p1, _) => (p1, st.2)

/-- The sequential fold of `upgradeStep` over the eligible pairs. -/
def upgradeFold (exc : ExcCfg) (l : List (String × Value)) (st : Person × List String) :
    Person × List String :=
  l.foldl (upgradeStep exc) st

/-- Embeds `ExcavatorField.excavate`: run the excavator; a falsy result upgrades
nothing; a result carrying the `OptOut` key yields the `"Optout"` token and
merges nothing; otherwise merge each truthy eligible `(key, value)` pair. -/
def ExcCfg.excavate (exc : ExcCfg) (person : Person) :
    Except String (Person × List String) :=
  match exc.run person with
  | .error e => .error e
  | .ok p_exc =>
    if p_exc.isEmpty then .ok (person, [])
    else if pmem p_exc "OptOut" then .ok (person, ["Optout"])
    else
      .ok (upgradeFold exc (p_exc.filter (fun kv =>
        kv.2.truthy && (exc.catchall || exc.update.contains kv.1 || exc.insert.contains kv.1)))
        (person, []))

/-- A memoization-ledger entry: `(endpoint, field, value)` as recorded by
`exc[excavator["endpoint"]].append((field, person[field]))`. -/
abbrev Trip := Nat × String × Option Value

abbrev Ledger := List Trip

/-- Result of the inner excavator loop of `Archeologist.person`: an
uncaught exception escaping an invocation, or the mutated record, grown
ledger, accumulated upgraded-key set, and invocation trace. -/
inductive ExcsOut where
  | exn : String → List Trip → ExcsOut
  | okk : Person → Ledger → List String → List Trip → ExcsOut
deriving DecidableEq

/-- The inner loop `for excavator in self.excavators[field]` of
`Archeologist.person`: skip an excavator whose `(field, current value)` is
already in its ledger entry, else record the triple in the ledger *before*
invoking, then excavate (exceptions propagate) and union the upgraded keys. -/
def runExcs (F : String) :
    List ExcCfg → Person → Ledger → List String → List Trip → ExcsOut
  | [], person, led, ups, tr => .okk person led ups tr
  | exc :: rest, person, led, ups, tr =>
    if (exc.id, F, pget person F) ∈ led then runExcs F rest person led ups tr
    else
      match exc.excavate person with
      | .error e => .exn e (tr ++ [(exc.id, F, pget person F)])
      | .ok (p1, newups) =>
          runExcs F rest p1 (led ++ [(exc.id, F, pget person F)])
            (updUnion ups newups) (tr ++ [(exc.id, F, pget person F)])

/-- Embeds `_ordered_elements` of `Archeologist`: the static declared trigger-field
list (the Schema Registry's field catalog for registration). -/
def orderedElements : List String :=
  ["url", "sameAs", "email", "image", "description", "name"]

/-- The enricher catalog held by an `Archeologist` instance:
`self.excavators` (field → ordered excavator list, keys fixed at
`_ordered_elements`) and `self.fields` (the registered trigger fields). -/
structure Catalog where
  excavators : List (String × List ExcCfg)
  fields : List String

/-- Python `field not in self.excavators` / `self.excavators[field]`. -/
def lookupExcs (cat : Catalog) (F : String) : Option (List ExcCfg) :=
  (cat.excavators.find? (fun kv => kv.1 == F)).map (fun kv => kv.2)

/-- Result of processing one popped worklist field: abort with an uncaught
exception, or continue with the step's upgraded-key set, the new pending
worklist, record, ledger and trace. -/
inductive StepOut where
  | abort : String → List Trip → StepOut
  | next : List String → List String → Person → Ledger → List Trip → StepOut
deriving DecidableEq

/-- Completion of one worklist-field iteration of `Archeologist.person`:
after the inner loop, `to_excavate = upgraded & self.fields` is appended to
the back of the worklist whenever `upgraded` and `to_excavate` are
non-empty (`fields.extend(to_excavate)`). -/
def stepFinish (rest : List String) (cat : Catalog) : ExcsOut → StepOut
  | .exn e tr1 => .abort e tr1
  | .okk p1 led1 ups tr1 =>
    let to_excavate := ups.filter (fun k => cat.fields.contains k)
    let wl := if ups ≠ [] ∧ to_excavate ≠ [] then rest ++ to_excavate else rest
    .next ups wl p1 led1 tr1

/-- One iteration of the `for field in fields` loop of
`Archeologist.person`: fields without an excavator list are skipped
(`continue`), others run their excavator list and finish with the
propagation step of `stepFinish`. -/
def stepField (cat : Catalog) (F : String) (rest : List String)
    (person : Person) (led : Ledger) (tr : List Trip) : StepOut :=
  match lookupExcs cat F with
  | none => .next [] rest person led tr
  | some excs => stepFinish rest cat (runExcs F excs person led [] tr)

/-- Outcome of a processing session: an uncaught exception, fuel
exhaustion (the source loop would still be running), or the source's
`return modified, (person if modified else {})` — recorded as the flag,
the final record state, the returned second component, and the trace. -/
inductive SessionOut where
  | exn : String → List Trip → SessionOut
  | out : List Trip → SessionOut
  | done : Bool → Person → Person → List Trip → SessionOut
deriving DecidableEq

/-- The invocation trace of a session outcome. -/
def SessionOut.trace : SessionOut → List Trip
  | .exn _ tr => tr
  | .out tr => tr
  | .done _ _ _ tr => tr

/-- The worklist loop of `Archeologist.person`, recursing on the pending
suffix of `fields` with fuel; `modified = True if upgraded else modified`
after each field. -/
def personRounds (cat : Catalog) :
    Nat → List String → Person → Ledger → Bool → List Trip → SessionOut
  | _, [], person, _, modified, tr =>
      .done modified person (if modified then person else []) tr
  | 0, _ :: _, _, _, _, tr => .out tr
  | Nat.succ fuel, F :: rest, person, led, modified, tr =>
    match stepField cat F rest person led tr with
    | .abort e tr1 => .exn e tr1
    | .next ups wl p1 led1 tr1 =>
        personRounds cat fuel wl p1 led1 (if ups.isEmpty then modified else true) tr1

/-- Source: `fields = list(person.keys() & self.fields)`: the input record's keys
that are trigger fields (the source's set intersection has no specified
order; the embedding uses the record's key order, and the session theorems
below quantify over arbitrary worklists). -/
def initWorklist (person : Person) (cat : Catalog) : List String :=
  (person.map (fun kv => kv.1)).filter (fun k => cat.fields.contains k)

/-- Embeds `Archeologist.person`, the `process` entry point of the spec. -/
def Archeologist.person (cat : Catalog) (fuel : Nat) (p : Person) : SessionOut :=
  personRounds cat fuel (initWorklist p cat) p [] false []

/-- The arguments of one `Archeologist.register` call (decorator keywords
plus the reflection-derived parameter data of the decorated function). -/
structure RegSpec where
  field : String
  update : List String
  insert : List String
  person_param : Bool
  parameters : List String
  id : Nat
  endpoint : Person → Except String Person

/-- Source: `self.excavators[field].append(excavator_param)` on the pre-keyed
excavator table. -/
def appendExc : List (String × List ExcCfg) → String → ExcCfg → List (String × List ExcCfg)
  | [], _, _ => []
  | (k, l) :: rest, f, c =>
      if k = f then (k, l ++ [c]) :: rest else (k, l) :: appendExc rest f c

/-- A fresh `Archeologist.__init__` catalog: every declared field keyed to
an empty excavator list, no registered trigger fields. -/
def Catalog.empty : Catalog :=
  { excavators := orderedElements.map (fun k => (k, [])), fields := [] }

/-- Embeds `Archeologist.register`: reject a field outside `_ordered_elements`
with `ValueError`, else derive `catchall` and append the excavator to the
field's ordered list, adding the field to `self.fields`. -/
def Archeologist.register (cat : Catalog) (r : RegSpec) : Except String Catalog :=
  if orderedElements.contains r.field = false then
    .error "This field can\x27t be exc"
  else
    .ok { excavators := appendExc cat.excavators r.field
            { id := r.id, update := r.update, insert := r.insert,
              catchall := r.insert.isEmpty && r.update.isEmpty,
              person_param := r.person_param, parameters := r.parameters,
              endpoint := r.endpoint },
          fields := addKey cat.fields r.field }

/-! Concrete excavator configurations and records used to evaluate the
engine on explicit inputs. -/

/-- An excavator on `email` whose result carries the terminal opt-out key. -/
def cfgOpt : ExcCfg :=
  { id := 0, update := [], insert := [], catchall := true,
    person_param := false, parameters := ["email"],
    endpoint := fun _ => .ok [("OptOut", .str "true")] }

/-- An update-mode excavator on `email` contributing `worksFor`. -/
def cfgWorks : ExcCfg :=
  { id := 1, update := ["worksFor"], insert := [], catchall := false,
    person_param := false, parameters := ["email"],
    endpoint := fun _ => .ok [("worksFor", .str "B Inc")] }

/-- A catalog with both excavators registered on `email`, the opt-out one
first. -/
def catOpt : Catalog :=
  { excavators := [("url", []), ("sameAs", []), ("email", [cfgOpt, cfgWorks]),
                   ("image", []), ("description", []), ("name", [])],
    fields := ["email"] }

/-- A seed record with only an email. -/
def pEmail : Person := [("email", .str "a@b.c")]

/-- An excavator on `email` whose invocation raises. -/
def cfgBoom : ExcCfg :=
  { id := 0, update := [], insert := [], catchall := true,
    person_param := false, parameters := ["email"],
    endpoint := fun _ => .error "boom" }

/-- A catalog with only the raising excavator. -/
def catBoom : Catalog :=
  { excavators := [("url", []), ("sameAs", []), ("email", [cfgBoom]),
                   ("image", []), ("description", []), ("name", [])],
    fields := ["email"] }

/-- An update-mode excavator on `email` that rewrites the (trigger) field
`name`. -/
def cfgName : ExcCfg :=
  { id := 0, update := ["name"], insert := [], catchall := false,
    person_param := false, parameters := ["email"],
    endpoint := fun _ => .ok [("name", .str "John")] }

/-- A do-nothing excavator on `name` (making `name` a trigger field). -/
def cfgNoop : ExcCfg :=
  { id := 1, update := [], insert := [], catchall := true,
    person_param := false, parameters := ["name"],
    endpoint := fun _ => .ok [] }

/-- A catalog where `email` and `name` are both trigger fields. -/
def catProp : Catalog :=
  { excavators := [("url", []), ("sameAs", []), ("email", [cfgName]),
                   ("image", []), ("description", []), ("name", [cfgNoop])],
    fields := ["email", "name"] }

/-- A seed record holding both trigger fields. -/
def pTwo : Person := [("email", .str "e@x.io"), ("name", .str "Old")]

/-- An update-mode excavator on `email` re-proposing the already-stored
`name`. -/
def cfgUnch : ExcCfg :=
  { id := 0, update := ["name"], insert := [], catchall := false,
    person_param := false, parameters := ["email"],
    endpoint := fun _ => .ok [("name", .str "Old")] }

/-- A catalog with only the no-news excavator on `email`. -/
def catUnch : Catalog :=
  { excavators := [("url", []), ("sameAs", []), ("email", [cfgUnch]),
                   ("image", []), ("description", []), ("name", [])],
    fields := ["email"] }

/-- An insert-only excavator for `alternateName`. -/
def cfgIns : ExcCfg :=
  { id := 0, update := [], insert := ["alternateName"], catchall := false,
    person_param := false, parameters := ["name"],
    endpoint := fun _ => .ok [] }

/-- A record whose `name` is `Acme Corp` and whose `alternateName` is
already present with a different value. -/
def pAcme : Person := [("name", .str "Acme Corp"), ("alternateName", .vset {"X"})]

/-- The value written on a SET-typed field by `person_set_field`: the
coerced current value unioned with the coerced candidate (on a SCALAR
field, the candidate itself).  `person_set_field` is exactly a `pset` of
this value. -/
def psfVal (person : Person) (field : String) (value : Value) : Value :=
  if is_field_set field then
    .vset ((match pget person field with
      | none => (∅ : Finset String)
      | some w => toFinset w) ∪ toFinset value)
  else value

/-- An insert-only excavator for `jobTitle`. -/
def cfgJob : ExcCfg :=
  { id := 0, update := [], insert := ["jobTitle"], catchall := false,
    person_param := false, parameters := ["description"],
    endpoint := fun _ => .ok [] }

/-- Decidable success test for a registration outcome. -/
def regIsOk : Except String Catalog → Bool
  | .ok _ => true
  | .error _ => false

/-- A registration request against the undeclared trigger field
`worksFor`. -/
def rBad : RegSpec :=
  { field := "worksFor", update := [], insert := [], person_param := false,
    parameters := [], id := 7, endpoint := fun _ => .ok [] }

/-- A registration request against the declared trigger field `email`. -/
def rGood : RegSpec :=
  { field := "email", update := ["worksFor"], insert := [], person_param := false,
    parameters := ["email"], id := 8, endpoint := fun _ => .ok [] }

/-- Invariant of an inner-loop outcome: the trace is duplicate-free, and on
normal completion every traced invocation is recorded in the ledger. -/
def excsInv : ExcsOut → Prop
  | .exn _ tr1 => tr1.Nodup
  | .okk _ led1 _ tr1 => tr1.Nodup ∧ ∀ t ∈ tr1, t ∈ led1

/-- Invariant of a field-step outcome, as for `excsInv`. -/
def stepInv : StepOut → Prop
  | .abort _ tr1 => tr1.Nodup
  | .next _ _ _ led1 tr1 => tr1.Nodup ∧ ∀ t ∈ tr1, t ∈ led1

/-! Record-access lemmas. -/

theorem pget_pset_self (p : Person) (k : String) (v : Value) :
    pget (pset p k v) k = some v := by
  induction p with
  | nil => simp [pset, pget]
  | cons kv rest ih =>
    by_cases h : kv.1 = k
    · simp [pset, pget, h]
    · simp [pset, pget, h, ih]

theorem pget_pset_ne (p : Person) (k k1 : String) (v : Value) (h : k ≠ k1) :
    pget (pset p k v) k1 = pget p k1 := by
  induction p with
  | nil => simp [pset, pget, h]
  | cons kv rest ih =>
    by_cases hk : kv.1 = k
    · subst hk; simp [pset, pget, h]
    · simp only [pset, if_neg hk]
      by_cases hk1 : kv.1 = k1
      · simp [pget, hk1]
      · simp [pget, hk1, ih]

theorem pset_self (p : Person) (k : String) (v : Value) (h : pget p k = some v) :
    pset p k v = p := by
  induction p with
  | nil => simp [pget] at h
  | cons kv rest ih =>
    by_cases hk : kv.1 = k
    · simp only [pget, if_pos hk] at h
      obtain rfl : kv.2 = v := by injection h
      simp [pset, if_pos hk, ← hk]
    · simp only [pget, if_neg hk] at h
      simp [pset, if_neg hk, ih h]

theorem person_set_field_eq_pset (p : Person) (k : String) (v : Value) :
    person_set_field p k v = pset p k (psfVal p k v) := by
  unfold person_set_field psfVal
  split <;> rfl

theorem pget_psf_self (p : Person) (k : String) (v : Value) :
    pget (person_set_field p k v) k = some (psfVal p k v) := by
  rw [person_set_field_eq_pset]; exact pget_pset_self p k _

theorem pget_psf_ne (p : Person) (k k1 : String) (v : Value) (h : k ≠ k1) :
    pget (person_set_field p k v) k1 = pget p k1 := by
  rw [person_set_field_eq_pset]; exact pget_pset_ne p k k1 _ h

theorem psfVal_stab (p : Person) (k : String) (v : Value) :
    psfVal (person_set_field p k v) k v = psfVal p k v := by
  unfold psfVal
  by_cases h : is_field_set k
  · rw [if_pos h, if_pos h, pget_psf_self]
    unfold psfVal
    rw [if_pos h]
    simp [toFinset, Finset.union_assoc]
  · rw [if_neg h, if_neg h]

/-! Merge-step lemmas about `upgrade`. -/

theorem upgrade_fst (exc : ExcCfg) (p : Person) (k : String) (v : Value) :
    (upgrade exc p k v).1 = p ∨ (upgrade exc p k v).1 = person_set_field p k v := by
  unfold upgrade
  split_ifs <;> simp

theorem upgrade_not_written (exc : ExcCfg) (p : Person) (k : String) (v : Value)
    (h : (upgrade exc p k v).2 ≠ some true) : (upgrade exc p k v).1 = p := by
  unfold upgrade at *
  split_ifs at * <;> simp_all

theorem upgrade_written (exc : ExcCfg) (p : Person) (k : String) (v : Value)
    (h : (upgrade exc p k v).2 = some true) :
    (upgrade exc p k v).1 = person_set_field p k v := by
  unfold upgrade at *
  split_ifs at * <;> simp_all

theorem upgrade_psf_fst (exc : ExcCfg) (p : Person) (k : String) (v : Value) :
    (upgrade exc (person_set_field p k v) k v).1 = person_set_field p k v := by
  unfold upgrade
  split_ifs with h1 h2 h3 h4
  · rfl
  · exfalso
    rw [pmem, pget_psf_self] at h2
    simp at h2
  · rfl
  · show person_set_field (person_set_field p k v) k v = person_set_field p k v
    rw [person_set_field_eq_pset (person_set_field p k v), psfVal_stab]
    exact pset_self _ _ _ (pget_psf_self p k v)
  · rfl

/-- C3 counterexample: merging the scalar candidate `"B Inc"` into the
SET-cardinality field `worksFor` of the empty record coerces it to the set
element `\x7b"B Inc"\x7d`; re-applying the same `(field, value)` pair to the
resulting record reports a write again (`some true`, outcome *updated*)
instead of the claimed no-modification outcome, even though the record is
left identical. -/
theorem claim_C3_counterexample :
    upgrade cfgWorks [] "worksFor" (.str "B Inc")
      = ([("worksFor", .vset {"B Inc"})], some true) ∧
    upgrade cfgWorks [("worksFor", .vset {"B Inc"})] "worksFor" (.str "B Inc")
      = ([("worksFor", .vset {"B Inc"})], some true) := by
  decide

/-- C3 (amended): merge is idempotent at the record level — re-applying the
same `(field, value)` pair to the record produced by a first application
leaves the record exactly identical — and on SCALAR fields the second
application also reports no modification; on SET-cardinality fields the
second application may report a write again whenever the stored set differs
from the candidate (in particular after a scalar candidate was coerced to a
set element). -/
theorem upgrade_at_stored (exc : ExcCfg) (p : Person) (k : String) (v : Value)
    (hcur : pget p k = some v) : (upgrade exc p k v).2 ≠ some true := by
  unfold upgrade
  split_ifs with g1 g2
  · simp
  · rw [pmem, hcur] at g2; simp at g2
  · simp

theorem claim_C3_amended (exc : ExcCfg) (p : Person) (k : String) (v : Value)
    (hk : annotatedFields.contains k = true) :
    (upgrade exc (upgrade exc p k v).1 k v).1 = (upgrade exc p k v).1 ∧
    (is_field_set k = false →
      (upgrade exc (upgrade exc p k v).1 k v).2 ≠ some true) := by
  constructor
  · rcases upgrade_fst exc p k v with h | h
    · rw [h]; exact h
    · rw [h]; exact upgrade_psf_fst exc p k v
  · intro hsc
    by_cases hw : (upgrade exc p k v).2 = some true
    · have h1 : (upgrade exc p k v).1 = person_set_field p k v :=
        upgrade_written exc p k v hw
      have hcur : pget (upgrade exc p k v).1 k = some v := by
        rw [h1, pget_psf_self]
        unfold psfVal
        rw [if_neg (by simp [hsc])]
      exact upgrade_at_stored exc _ k v hcur
    · rw [upgrade_not_written exc p k v hw]
      exact hw

/-- C3 witness: the amended record-level idempotence and scalar outcome
idempotence evaluated on the scalar field `name`. -/
theorem claim_C3_witness :
    (upgrade cfgName (upgrade cfgName [] "name" (.str "John")).1 "name" (.str "John")).1
      = (upgrade cfgName [] "name" (.str "John")).1 ∧
    (is_field_set "name" = false →
      (upgrade cfgName (upgrade cfgName [] "name" (.str "John")).1 "name" (.str "John")).2
        ≠ some true) :=
  claim_C3_amended cfgName [] "name" (.str "John") (by decide)

/-- C5: an excavator that is insert-only for a field (the field is not in
its `update` list and it is not catch-all) never overwrites an
already-present value: when the stored value differs from the candidate,
`upgrade` performs no write (outcome insert-blocked, `False` in the source)
and the record is returned untouched. -/
theorem claim_C5 (exc : ExcCfg) (p : Person) (k : String) (v w : Value)
    (hupd : k ∉ exc.update) (hca : exc.catchall = false)
    (hcur : pget p k = some w) (hne : w ≠ v) :
    upgrade exc p k v = (p, some false) := by
  unfold upgrade
  split_ifs with h1 h2 h3 h4
  · rfl
  · rw [pmem, hcur] at h2; simp at h2
  · rw [hcur] at h3
    exact absurd (by injection h3) hne
  · rcases h4 with h4 | h4
    · exact absurd h4 hupd
    · rw [hca] at h4; simp at h4
  · rfl

/-- C5 witness: the insert-only excavator for `jobTitle` leaves an existing
differing `jobTitle` untouched. -/
theorem claim_C5_witness :
    upgrade cfgJob [("jobTitle", .str "Dev")] "jobTitle" (.str "CTO")
      = ([("jobTitle", .str "Dev")], some false) :=
  claim_C5 cfgJob [("jobTitle", .str "Dev")] "jobTitle" (.str "CTO") (.str "Dev")
    (by decide) (by decide) (by decide) (by decide)

/-- C6: on a SET-cardinality field currently holding a set, any single
merge application leaves the field holding a set that contains every
previous element — growth is monotonic and the field is never flattened
back to a scalar. -/
theorem claim_C6 (exc : ExcCfg) (p : Person) (f k : String) (v : Value)
    (s : Finset String)
    (hf : is_field_set f = true) (hcur : pget p f = some (.vset s)) :
    ∃ s1, pget (upgrade exc p k v).1 f = some (.vset s1) ∧ s ⊆ s1 := by
  rcases upgrade_fst exc p k v with h | h
  · exact ⟨s, by rw [h, hcur], Finset.Subset.refl s⟩
  · by_cases hkf : k = f
    · subst hkf
      refine ⟨s ∪ toFinset v, ?_, Finset.subset_union_left⟩
      rw [h, pget_psf_self]
      unfold psfVal
      rw [if_pos hf, hcur]
      rfl
    · exact ⟨s, by rw [h, pget_psf_ne p k f v hkf, hcur], Finset.Subset.refl s⟩

/-- C6 witness: an update merge of the scalar `"B"` into `worksFor`
holding `\x7b"A"\x7d` keeps every previous element. -/
theorem claim_C6_witness :
    ∃ s1, pget (upgrade cfgWorks [("worksFor", .vset {"A"})] "worksFor" (.str "B")).1
        "worksFor" = some (.vset s1) ∧ {"A"} ⊆ s1 :=
  claim_C6 cfgWorks [("worksFor", .vset {"A"})] "worksFor" "worksFor" (.str "B") {"A"}
    (by decide) (by decide)

/-- C8 counterexample: on the record whose `name` is `"Acme Corp"` but which
already holds a different `alternateName`, merging the output
`alternateName = "Acme"` through the insert-only excavator writes nothing —
refuting the claim that for every record with that `name` such an output
writes `alternateName` into the record. -/
theorem claim_C8_counterexample :
    upgrade cfgIns pAcme "alternateName" (.str "Acme") = (pAcme, some false) ∧
    pget pAcme "alternateName" = some (.vset {"X"}) := by
  decide

/-- C8 (amended): for every record whose `name` equals `"Acme Corp"`,
merging `alternateName = "Acme Corp"` is suppressed (no write, no
modification); merging `alternateName = "Acme"` writes `alternateName` when
the field is absent (outcome *added*, stored as the set `\x7b"Acme"\x7d`);
when `alternateName` is already present it is written only if the stored
value differs and the write policy permits overwrite. -/
theorem claim_C8_amended (exc : ExcCfg) (p : Person)
    (hname : pget p "name" = some (.str "Acme Corp")) :
    upgrade exc p "alternateName" (.str "Acme Corp") = (p, some false) ∧
    (pmem p "alternateName" = false →
      upgrade exc p "alternateName" (.str "Acme")
        = (pset p "alternateName" (.vset {"Acme"}), some true)) := by
  constructor
  · unfold upgrade
    rw [if_pos ⟨rfl, by rw [hname]⟩]
  · intro habs
    unfold upgrade
    rw [if_neg (by rw [hname]; rintro ⟨-, hv⟩; injection hv with hv; simp at hv)]
    rw [if_pos habs]
    have hnone : pget p "alternateName" = none := by
      rw [pmem] at habs
      exact Option.not_isSome_iff_eq_none.mp (by simp [habs])
    rw [person_set_field_eq_pset]
    unfold psfVal
    rw [if_pos (by decide), hnone]
    simp [toFinset]

/-- C8 witness: both halves of the amended suppression property evaluated
on the bare record with `name = "Acme Corp"`. -/
theorem claim_C8_witness :
    upgrade cfgIns [("name", .str "Acme Corp")] "alternateName" (.str "Acme Corp")
      = ([("name", .str "Acme Corp")], some false) ∧
    (pmem [("name", .str "Acme Corp")] "alternateName" = false →
      upgrade cfgIns [("name", .str "Acme Corp")] "alternateName" (.str "Acme")
        = (pset [("name", .str "Acme Corp")] "alternateName" (.vset {"Acme"}), some true)) :=
  claim_C8_amended cfgIns [("name", .str "Acme Corp")] (by decide)

/-- C9: registering an excavator against a trigger field outside the static
declared list fails fast with the source's `ValueError`; consequently a
successful registration always concerns a declared trigger field, so no
session can encounter an excavator registered on an undeclared one. -/
theorem claim_C9 (cat : Catalog) (r : RegSpec) :
    (orderedElements.contains r.field = false →
      Archeologist.register cat r = .error "This field can\x27t be exc") ∧
    (regIsOk (Archeologist.register cat r) = true →
      orderedElements.contains r.field = true) := by
  constructor
  · intro h
    unfold Archeologist.register
    rw [if_pos h]
  · intro h
    cases hc : orderedElements.contains r.field with
    | true => rfl
    | false =>
      unfold Archeologist.register at h
      rw [if_pos hc] at h
      simp [regIsOk] at h

/-- C9 witness: registering on `worksFor` raises, registering on `email`
succeeds and is on a declared field. -/
theorem claim_C9_witness :
    Archeologist.register Catalog.empty rBad = .error "This field can\x27t be exc" ∧
    orderedElements.contains rGood.field = true :=
  ⟨(claim_C9 Catalog.empty rBad).1 (by decide),
   (claim_C9 Catalog.empty rGood).2 (by rfl)⟩

/-! Lemmas about the upgraded-key sets and the excavate fold. -/

theorem addKey_ne_nil (l : List String) (k : String) : addKey l k ≠ [] := by
  unfold addKey
  split
  · rename_i h
    intro hnil
    rw [hnil] at h
    simp at h
  · simp

theorem updUnion_eq_nil (a b : List String) (h : updUnion a b = []) :
    a = [] ∧ b = [] := by
  induction b generalizing a with
  | nil => exact ⟨h, rfl⟩
  | cons x t ih =>
    have h2 : updUnion (addKey a x) t = [] := h
    exact absurd (ih (addKey a x) h2).1 (addKey_ne_nil a x)

theorem upgradeStep_cases (exc : ExcCfg) (st : Person × List String)
    (kv : String × Value) :
    (upgradeStep exc st kv
        = ((upgrade exc st.1 kv.1 kv.2).1, addKey st.2 kv.1)
      ∧ (upgrade exc st.1 kv.1 kv.2).2 = some true)
    ∨ (upgradeStep exc st kv = st
      ∧ (upgrade exc st.1 kv.1 kv.2).2 ≠ some true) := by
  unfold upgradeStep
  cases hu : upgrade exc st.1 kv.1 kv.2 with
  | mk q m =>
    cases m with
    | none =>
      right
      have hq : q = st.1 := by
        have h2 := upgrade_not_written exc st.1 kv.1 kv.2 (by rw [hu]; simp)
        rw [hu] at h2
        exact h2
      refine ⟨?_, by simp⟩
      show (q, st.2) = st
      rw [hq]
    | some b =>
      cases b with
      | true => exact Or.inl ⟨rfl, rfl⟩
      | false =>
        right
        have hq : q = st.1 := by
          have h2 := upgrade_not_written exc st.1 kv.1 kv.2 (by rw [hu]; simp)
          rw [hu] at h2
          exact h2
        refine ⟨?_, by simp⟩
        show (q, st.2) = st
        rw [hq]

theorem upgradeFold_nil_ups (exc : ExcCfg) (l : List (String × Value)) :
    ∀ p acc p1, upgradeFold exc l (p, acc) = (p1, []) → p1 = p ∧ acc = [] := by
  induction l with
  | nil =>
    intro p acc p1 h
    have h2 : (p, acc) = (p1, ([] : List String)) := h
    exact ⟨(Prod.mk.injEq _ _ _ _ ▸ h2).1.symm, (Prod.mk.injEq _ _ _ _ ▸ h2).2⟩
  | cons kv t ih =>
    intro p acc p1 h
    have hstep : upgradeFold exc (kv :: t) (p, acc)
        = upgradeFold exc t (upgradeStep exc (p, acc) kv) := rfl
    rw [hstep] at h
    rcases upgradeStep_cases exc (p, acc) kv with ⟨heq, hw⟩ | ⟨heq, hw⟩
    · rw [heq] at h
      obtain ⟨-, hacc⟩ := ih _ _ _ h
      exact absurd hacc (addKey_ne_nil acc kv.1)
    · rw [heq] at h
      exact ih _ _ _ h

theorem excavate_nil_ups (exc : ExcCfg) (p p1 : Person)
    (h : exc.excavate p = .ok (p1, [])) : p1 = p := by
  unfold ExcCfg.excavate at h
  split at h
  · exact Except.noConfusion h
  · split_ifs at h with he ho
    · simp only [Except.ok.injEq, Prod.mk.injEq] at h
      exact h.1.symm
    · simp at h
    · simp only [Except.ok.injEq] at h
      exact (upgradeFold_nil_ups exc _ p [] p1 (by rw [h])).1

/-! Lemmas about the inner excavator loop and the worklist loop. -/

theorem runExcs_nil_ups (F : String) (excs : List ExcCfg) :
    ∀ p led ups tr p1 led1 tr1,
      runExcs F excs p led ups tr = .okk p1 led1 [] tr1 → p1 = p ∧ ups = [] := by
  induction excs with
  | nil =>
    intro p led ups tr p1 led1 tr1 h
    unfold runExcs at h
    injection h with h1 h2 h3 h4
    exact ⟨h1.symm, h3⟩
  | cons exc rest ih =>
    intro p led ups tr p1 led1 tr1 h
    unfold runExcs at h
    by_cases hm : (exc.id, F, pget p F) ∈ led
    · rw [if_pos hm] at h
      exact ih p led ups tr p1 led1 tr1 h
    · rw [if_neg hm] at h
      cases he : exc.excavate p with
      | error e =>
        rw [he] at h
        exact ExcsOut.noConfusion h
      | ok pr =>
        obtain ⟨p2, newups⟩ := pr
        rw [he] at h
        obtain ⟨hp, hu⟩ := ih p2 (led ++ [(exc.id, F, pget p F)])
          (updUnion ups newups) (tr ++ [(exc.id, F, pget p F)]) p1 led1 tr1 h
        obtain ⟨hups, hnew⟩ := updUnion_eq_nil ups newups hu
        refine ⟨?_, hups⟩
        rw [hp]
        exact excavate_nil_ups exc p p2 (by rw [he, hnew])

theorem stepField_nil_ups (cat : Catalog) (F : String) (rest : List String)
    (p : Person) (led : Ledger) (tr : List Trip) (wl1 : List String)
    (p1 : Person) (led1 : Ledger) (tr1 : List Trip)
    (h : stepField cat F rest p led tr = .next [] wl1 p1 led1 tr1) :
    p1 = p ∧ wl1 = rest := by
  unfold stepField at h
  cases hl : lookupExcs cat F with
  | none =>
    simp only [hl] at h
    injection h with h1 h2 h3 h4 h5
    exact ⟨h3.symm, h2.symm⟩
  | some excs =>
    simp only [hl] at h
    cases hr : runExcs F excs p led [] tr with
    | exn e tr2 =>
      rw [hr] at h
      exact StepOut.noConfusion h
    | okk p2 led2 ups tr2 =>
      rw [hr] at h
      unfold stepFinish at h
      injection h with h1 h2 h3 h4 h5
      subst h1
      obtain ⟨hp2, -⟩ := runExcs_nil_ups F excs p led [] tr p2 led2 tr2 hr
      refine ⟨by rw [← h3, hp2], ?_⟩
      rw [← h2]
      simp

theorem personRounds_mono (cat : Catalog) :
    ∀ fuel wl p led tr m rec ret tr1,
      personRounds cat fuel wl p led true tr = .done m rec ret tr1 → m = true := by
  intro fuel
  induction fuel with
  | zero =>
    intro wl p led tr m rec ret tr1 h
    cases wl with
    | nil =>
      unfold personRounds at h
      injection h with h1 h2 h3 h4
      exact h1.symm
    | cons F rest =>
      unfold personRounds at h
      exact SessionOut.noConfusion h
  | succ n ih =>
    intro wl p led tr m rec ret tr1 h
    cases wl with
    | nil =>
      unfold personRounds at h
      injection h with h1 h2 h3 h4
      exact h1.symm
    | cons F rest =>
      unfold personRounds at h
      cases hs : stepField cat F rest p led tr with
      | abort e tr2 =>
        simp only [hs] at h
        exact SessionOut.noConfusion h
      | next ups wl2 p2 led2 tr2 =>
        simp only [hs] at h
        cases ups with
        | nil => exact ih wl2 p2 led2 tr2 m rec ret tr1 h
        | cons u ut => exact ih wl2 p2 led2 tr2 m rec ret tr1 h

theorem personRounds_unmodified (cat : Catalog) :
    ∀ fuel wl p led modified tr rec ret tr1,
      personRounds cat fuel wl p led modified tr = .done false rec ret tr1 →
      rec = p ∧ ret = [] := by
  intro fuel
  induction fuel with
  | zero =>
    intro wl p led modified tr rec ret tr1 h
    cases wl with
    | nil =>
      unfold personRounds at h
      injection h with h1 h2 h3 h4
      subst h1
      refine ⟨h2.symm, ?_⟩
      rw [← h3]
      simp
    | cons F rest =>
      unfold personRounds at h
      exact SessionOut.noConfusion h
  | succ n ih =>
    intro wl p led modified tr rec ret tr1 h
    cases wl with
    | nil =>
      unfold personRounds at h
      injection h with h1 h2 h3 h4
      subst h1
      refine ⟨h2.symm, ?_⟩
      rw [← h3]
      simp
    | cons F rest =>
      unfold personRounds at h
      cases hs : stepField cat F rest p led tr with
      | abort e tr2 =>
        simp only [hs] at h
        exact SessionOut.noConfusion h
      | next ups wl2 p2 led2 tr2 =>
        simp only [hs] at h
        cases ups with
        | nil =>
          obtain ⟨hrec, hret⟩ := ih wl2 p2 led2 modified tr2 rec ret tr1 (by
            have h2 : (if ([] : List String).isEmpty then modified else true) = modified := by simp
            rw [h2] at h
            exact h)
          obtain ⟨hp2, -⟩ := stepField_nil_ups cat F rest p led tr wl2 p2 led2 tr2 hs
          exact ⟨by rw [hrec, hp2], hret⟩
        | cons u ut =>
          exfalso
          have h2 : (if (u :: ut).isEmpty then modified else true) = true := by simp
          rw [h2] at h
          exact absurd (personRounds_mono cat n wl2 p2 led2 tr2 false rec ret tr1 h) (by simp)

theorem nodup_snoc {α : Type} (l : List α) (a : α) (h1 : l.Nodup) (h2 : a ∉ l) :
    (l ++ [a]).Nodup := by
  rw [List.nodup_append]
  refine ⟨h1, List.nodup_singleton a, ?_⟩
  intro x hx hxa
  simp only [List.mem_singleton] at hxa
  subst hxa
  exact h2 hx

theorem runExcs_inv (F : String) (excs : List ExcCfg) :
    ∀ p led ups tr, tr.Nodup → (∀ t ∈ tr, t ∈ led) →
      excsInv (runExcs F excs p led ups tr) := by
  induction excs with
  | nil =>
    intro p led ups tr h1 h2
    exact ⟨h1, h2⟩
  | cons exc rest ih =>
    intro p led ups tr h1 h2
    unfold runExcs
    by_cases hm : (exc.id, F, pget p F) ∈ led
    · rw [if_pos hm]
      exact ih p led ups tr h1 h2
    · rw [if_neg hm]
      have hnotin : (exc.id, F, pget p F) ∉ tr := fun hc => hm (h2 _ hc)
      cases he : exc.excavate p with
      | error e =>
        exact nodup_snoc tr _ h1 hnotin
      | ok pr =>
        obtain ⟨p2, newups⟩ := pr
        refine ih p2 (led ++ [(exc.id, F, pget p F)]) (updUnion ups newups)
          (tr ++ [(exc.id, F, pget p F)]) (nodup_snoc tr _ h1 hnotin) ?_
        intro t ht
        rcases List.mem_append.mp ht with hta | hta
        · exact List.mem_append.mpr (Or.inl (h2 t hta))
        · exact List.mem_append.mpr (Or.inr hta)

theorem stepField_inv (cat : Catalog) (F : String) (rest : List String)
    (p : Person) (led : Ledger) (tr : List Trip)
    (h1 : tr.Nodup) (h2 : ∀ t ∈ tr, t ∈ led) :
    stepInv (stepField cat F rest p led tr) := by
  unfold stepField
  cases hl : lookupExcs cat F with
  | none => exact ⟨h1, h2⟩
  | some excs =>
    show stepInv (stepFinish rest cat (runExcs F excs p led [] tr))
    have hinv := runExcs_inv F excs p led [] tr h1 h2
    cases hr : runExcs F excs p led [] tr with
    | exn e tr2 =>
      rw [hr] at hinv
      exact hinv
    | okk p2 led2 ups tr2 =>
      rw [hr] at hinv
      exact hinv

theorem personRounds_nodup (cat : Catalog) :
    ∀ fuel wl p led modified tr, tr.Nodup → (∀ t ∈ tr, t ∈ led) →
      (personRounds cat fuel wl p led modified tr).trace.Nodup := by
  intro fuel
  induction fuel with
  | zero =>
    intro wl p led modified tr h1 h2
    cases wl with
    | nil => exact h1
    | cons F rest => exact h1
  | succ n ih =>
    intro wl p led modified tr h1 h2
    cases wl with
    | nil => exact h1
    | cons F rest =>
      unfold personRounds
      have hinv := stepField_inv cat F rest p led tr h1 h2
      cases hs : stepField cat F rest p led tr with
      | abort e tr2 =>
        rw [hs] at hinv
        exact hinv
      | next ups wl2 p2 led2 tr2 =>
        rw [hs] at hinv
        exact ih wl2 p2 led2 _ tr2 hinv.1 hinv.2

theorem isEmpty_dict_to_person (q : Person) :
    (dict_to_person q).isEmpty = q.isEmpty := by
  cases q <;> rfl

theorem pmem_dict_to_person (q : Person) (k : String) :
    pmem (dict_to_person q) k = pmem q k := by
  induction q with
  | nil => rfl
  | cons kv rest ih =>
    simp only [dict_to_person, List.map_cons] at ih ⊢
    by_cases hc : is_field_set kv.1 = true ∧ is_pure_iterable kv.2 = false
    · rw [if_pos hc]
      unfold pmem pget
      by_cases hk : kv.1 = k
      · simp [hk]
      · simp only [hk, if_false, if_neg hk]
        exact ih
    · rw [if_neg hc]
      unfold pmem pget
      by_cases hk : kv.1 = k
      · simp [hk]
      · simp only [hk, if_false, if_neg hk]
        exact ih

/-- C4: within a single `process` session, no excavator is ever invoked
twice with the same `(trigger field, field value)` pair: the memoization
ledger is written before each invocation and consulted before each
candidate invocation, so the session's invocation trace never repeats an
`(endpoint, field, value)` triple. -/
theorem claim_C4 (cat : Catalog) (fuel : Nat) (p : Person) :
    (Archeologist.person cat fuel p).trace.Nodup :=
  personRounds_nodup cat fuel (initWorklist p cat) p [] false []
    List.nodup_nil (by simp)

/-- C10: whenever `Archeologist.person` completes with `modified = false`,
the record is exactly the one passed in — no key was added or removed and
no stored value was altered during the session — and the returned second
component is the empty "nothing new found" record. -/
theorem claim_C10 (cat : Catalog) (fuel : Nat) (p rec ret : Person)
    (tr : List Trip)
    (h : Archeologist.person cat fuel p = .done false rec ret tr) :
    rec = p ∧ ret = [] :=
  personRounds_unmodified cat fuel (initWorklist p cat) p [] false [] rec ret tr h

/-- C10 witness: a session whose single excavator re-proposes the stored
`name` completes unmodified with the input record untouched. -/
theorem claim_C10_witness :
    pTwo = pTwo ∧ ([] : Person) = [] :=
  claim_C10 catUnch 2 pTwo pTwo [] [(0, "email", some (.str "e@x.io"))] (by decide)

/-- C1 counterexample: in a session whose first excavator on `email`
returns the terminal opt-out marker, the session does not abort — the
second excavator is still invoked (trace entry for endpoint 1), its write
is kept, and `process` completes with `modified = true` and the full,
unredacted record rather than an opted-out redacted result. -/
theorem claim_C1_counterexample :
    Archeologist.person catOpt 5 pEmail
      = .done true [("email", .str "a@b.c"), ("worksFor", .vset {"B Inc"})]
          [("email", .str "a@b.c"), ("worksFor", .vset {"B Inc"})]
          [(0, "email", some (.str "a@b.c")), (1, "email", some (.str "a@b.c"))] := by
  decide

/-- C1 (amended): when an excavator's result contains the terminal marker,
that excavator merges none of its fields — its `excavate` leaves the record
untouched and contributes only the `"Optout"` token (which counts as a
modification) — but the session is not aborted: the inner loop records the
invocation and continues with the remaining excavators of the field. -/
theorem claim_C1_amended (exc : ExcCfg) (p q : Person) (F : String)
    (rest : List ExcCfg) (led : Ledger) (ups : List String) (tr : List Trip)
    (hq : exc.endpoint (bindParams exc p) = .ok q)
    (hne : q.isEmpty = false)
    (hopt : pmem q "OptOut" = true)
    (hmemo : (exc.id, F, pget p F) ∉ led) :
    exc.excavate p = .ok (p, ["Optout"]) ∧
    runExcs F (exc :: rest) p led ups tr
      = runExcs F rest p (led ++ [(exc.id, F, pget p F)])
          (updUnion ups ["Optout"]) (tr ++ [(exc.id, F, pget p F)]) := by
  have hrun : exc.run p = .ok (dict_to_person q) := by
    unfold ExcCfg.run
    rw [hq]
    simp [hne]
  have hexc : exc.excavate p = .ok (p, ["Optout"]) := by
    unfold ExcCfg.excavate
    rw [hrun]
    simp [isEmpty_dict_to_person, hne, pmem_dict_to_person, hopt]
  refine ⟨hexc, ?_⟩
  have hstep : runExcs F (exc :: rest) p led ups tr
      = if (exc.id, F, pget p F) ∈ led then runExcs F rest p led ups tr
        else match exc.excavate p with
          | .error e2 => .exn e2 (tr ++ [(exc.id, F, pget p F)])
          | .ok (p1, newups) =>
              runExcs F rest p1 (led ++ [(exc.id, F, pget p F)])
                (updUnion ups newups) (tr ++ [(exc.id, F, pget p F)]) := rfl
  rw [hstep, if_neg hmemo, hexc]

/-- C1 witness: the amended behaviour evaluated on the two-excavator
catalog — the opt-out result merges nothing, and the inner loop proceeds to
the second excavator. -/
theorem claim_C1_witness :
    cfgOpt.excavate pEmail = .ok (pEmail, ["Optout"]) ∧
    runExcs "email" [cfgOpt, cfgWorks] pEmail [] [] []
      = runExcs "email" [cfgWorks] pEmail [(cfgOpt.id, "email", pget pEmail "email")]
          (updUnion [] ["Optout"]) [(cfgOpt.id, "email", pget pEmail "email")] :=
  claim_C1_amended cfgOpt pEmail [("OptOut", .str "true")] "email" [cfgWorks] [] [] []
    (by rfl) (by rfl) (by rfl) (by simp)

/-- C2 counterexample: an exception raised inside an excavator's invocation
is not caught — the session aborts and the exception escapes
`Archeologist.person` instead of being treated as an empty result and
continuing. -/
theorem claim_C2_counterexample :
    Archeologist.person catBoom 5 pEmail
      = .exn "boom" [(0, "email", some (.str "a@b.c"))] := by
  decide

/-- C2 (amended): an exception raised inside an excavator's invocation
propagates: the orchestrator performs no recovery, so a session reaching a
not-yet-memoized excavator whose `excavate` raises terminates immediately
with that exception — no later excavator or worklist field runs. -/
theorem claim_C2_amended (cat : Catalog) (F : String) (exc : ExcCfg)
    (excs : List ExcCfg) (fuel : Nat) (rest : List String) (p : Person)
    (led : Ledger) (modified : Bool) (tr : List Trip) (e : String)
    (hl : lookupExcs cat F = some (exc :: excs))
    (he : exc.excavate p = .error e)
    (hmemo : (exc.id, F, pget p F) ∉ led) :
    personRounds cat (Nat.succ fuel) (F :: rest) p led modified tr
      = .exn e (tr ++ [(exc.id, F, pget p F)]) := by
  have hrun : runExcs F (exc :: excs) p led [] tr
      = .exn e (tr ++ [(exc.id, F, pget p F)]) := by
    unfold runExcs
    rw [if_neg hmemo, he]
  have hstep : stepField cat F rest p led tr
      = .abort e (tr ++ [(exc.id, F, pget p F)]) := by
    unfold stepField
    rw [hl]
    show stepFinish rest cat (runExcs F (exc :: excs) p led [] tr)
      = .abort e (tr ++ [(exc.id, F, pget p F)])
    rw [hrun]
    rfl
  unfold personRounds
  rw [hstep]

/-- C2 witness: the raising excavator aborts the concrete session with its
exception. -/
theorem claim_C2_witness :
    personRounds catBoom 1 ["email"] pEmail [] false []
      = .exn "boom" [(cfgBoom.id, "email", pget pEmail "email")] :=
  claim_C2_amended catBoom "email" cfgBoom [] 0 [] pEmail [] false [] "boom"
    (by rfl) (by rfl) (by simp)

/-- C7 counterexample: after processing `email`, whose excavator rewrote
the trigger field `name`, the worklist — in which `name` was already
pending — receives `name` appended a second time: the source performs no
already-pending check before `fields.extend(to_excavate)`. -/
theorem claim_C7_counterexample :
    stepField catProp "email" ["name"] pTwo [] []
      = .next ["name"] ["name", "name"]
          [("email", .str "e@x.io"), ("name", .str "John")]
          [(0, "email", some (.str "e@x.io"))]
          [(0, "email", some (.str "e@x.io"))] := by
  decide

/-- C7 (amended): after all excavators for a popped field have run, exactly
the newly-written keys that are trigger fields are appended to the back of
the worklist — with no check against fields already pending, so an
already-pending trigger field is appended (and later processed) again. -/
theorem claim_C7_amended (cat : Catalog) (F : String) (rest : List String)
    (p : Person) (led : Ledger) (tr : List Trip) (ups wl1 : List String)
    (p1 : Person) (led1 : Ledger) (tr1 : List Trip)
    (h : stepField cat F rest p led tr = .next ups wl1 p1 led1 tr1) :
    wl1 = rest ++ ups.filter (fun k => cat.fields.contains k) := by
  unfold stepField at h
  cases hl : lookupExcs cat F with
  | none =>
    simp only [hl] at h
    injection h with h1 h2 h3 h4 h5
    subst h1
    rw [← h2]
    simp
  | some excs =>
    simp only [hl] at h
    cases hr : runExcs F excs p led [] tr with
    | exn e tr2 =>
      rw [hr] at h
      exact StepOut.noConfusion h
    | okk p2 led2 ups2 tr2 =>
      rw [hr] at h
      unfold stepFinish at h
      injection h with h1 h2 h3 h4 h5
      rw [← h2, h1]
      split_ifs with hc
      · rfl
      · by_cases hf : ups.filter (fun k => cat.fields.contains k) = []
        · rw [hf]
          simp
        · exfalso
          apply hc
          refine ⟨?_, hf⟩
          intro hu
          rw [hu] at hf
          simp at hf

/-- C7 witness: the amended propagation rule evaluated on the concrete
step — the appended suffix is exactly the newly-written trigger fields. -/
theorem claim_C7_witness :
    (["name", "name"] : List String)
      = ["name"] ++ (["name"].filter (fun k => catProp.fields.contains k)) :=
  claim_C7_amended catProp "email" ["name"] pTwo [] [] ["name"] ["name", "name"]
    [("email", .str "e@x.io"), ("name", .str "John")]
    [(0, "email", some (.str "e@x.io"))]
    [(0, "email", some (.str "e@x.io"))] (by decide)
